import Mathlib

/-!
# Verification of the Klingon-Translator matching engine

Shallow embedding of the translation engine of the Klingon-Translator
repository, together with proofs about its behaviour.

The embedded components and their sources:

* `normalizeText`, `isExactMatch`, `containsText`, `isEmptyText` —
  src/services/core/TextNormalizer/TextNormalizer.ts
* `calculateSimilarity`, `isSimilar`, `findMostSimilar` —
  src/services/core/SimilarityCalculator/SimilarityCalculator.ts
* `calculateMatchSimilarity`, `findMatches` —
  src/services/core/DictionaryMatcher/DictionaryMatcher.ts
* `processTranslation`, `createEmptyResult`, `createUnknownResult` —
  src/services/core/TranslationProcessor/TranslationProcessor.ts
* `languageOptions`, `isLanguageSupported` —
  src/services/core/LanguageConfig/LanguageConfig.ts
* `translateText`, `createErrorResult` —
  src/services/translationService/translationService.ts

Modelling conventions: JavaScript strings are Lean `String`s (lists of
characters); JavaScript numbers are `ℚ` (all arithmetic performed by the
engine is exact on the rationals at the small sizes involved, and `ℚ`
makes the threshold comparisons exact); `undefined`/optional fields are
`Option`; the dictionary, a module-level constant whose data file lies
outside the engine, is passed explicitly as a `List Translation`.
-/

namespace KlingonTranslator

/-! ## Character-level models of the JavaScript primitives -/

/-- Model of the whitespace class used by `String.prototype.trim` and the
regular-expression class `\s` (restricted to the ASCII whitespace that can
actually occur in the engine's data). -/
def jsIsWs (c : Char) : Bool :=
  c.isWhitespace

/-- The fixed punctuation set removed by the Normalizer's regular
expression `/[.,!?;:]/g`. -/
def isPunctToRemove (c : Char) : Bool :=
  c == '.' || c == ',' || c == '!' || c == '?' || c == ';' || c == ':'

/-- Per-character model of `String.prototype.toLowerCase` (basic Latin
range, the range exercised by the engine). -/
def jsToLower (c : Char) : Char :=
  if 65 ≤ c.toNat ∧ c.toNat ≤ 90 then Char.ofNat (c.toNat + 32) else c

/-- Model of `String.prototype.trim`: drop leading and trailing
whitespace. -/
def trimL (l : List Char) : List Char :=
  List.rdropWhile jsIsWs (l.dropWhile jsIsWs)

/-- Model of `.replace(/\s+/g, " ")`: each maximal run of whitespace
characters is replaced by a single space.  The boolean flag records
whether we are inside a whitespace run (whose replacement space has
already been emitted). -/
def collapseGo : Bool → List Char → List Char
  | _, [] => []
  | inRun, c :: cs =>
    if jsIsWs c then
      if inRun then collapseGo true cs else ' ' :: collapseGo true cs
    else c :: collapseGo false cs

/-- Does `hay` start with `needle`?  (Helper for the model of
`String.prototype.includes`.) -/
def startsWithL : List Char → List Char → Bool
  | [], _ => true
  | _ :: _, [] => false
  | n :: ns, h :: hs => n == h && startsWithL ns hs

/-- Model of `hay.includes(needle)`: some suffix of `hay` starts with
`needle`.  An empty needle is contained in every string. -/
def includesL : List Char → List Char → Bool
  | [], needle => needle.isEmpty
  | h :: hs, needle => startsWithL needle (h :: hs) || includesL hs needle

/-- String-level wrapper for `includesL`. -/
def jsIncludes (hay needle : String) : Bool :=
  includesL hay.data needle.data

/-- Model of `String.prototype.toLowerCase`. -/
def lowerStr (s : String) : String :=
  ⟨s.data.map jsToLower⟩

/-! ## TextNormalizer.ts -/

/-- `normalizeText` (TextNormalizer.ts, lines 33–39): lowercase, trim,
remove the punctuation set `. , ! ? ; :`, collapse whitespace runs to a
single space — in exactly that order. -/
def normalizeText (text : String) : String :=
  let lowered := text.data.map jsToLower
  let trimmed := trimL lowered
  let unpunct := trimmed.filter (fun c => !isPunctToRemove c)
  ⟨collapseGo false unpunct⟩

/-- `isExactMatch` (TextNormalizer.ts, lines 55–57). -/
def isExactMatch (text1 text2 : String) : Bool :=
  normalizeText text1 == normalizeText text2

/-- `containsText` (TextNormalizer.ts, lines 73–81): symmetric containment
of the normalized strings. -/
def containsText (text searchTerm : String) : Bool :=
  let normalizedText := normalizeText text
  let normalizedTerm := normalizeText searchTerm
  jsIncludes normalizedText normalizedTerm || jsIncludes normalizedTerm normalizedText

/-- `isEmptyText` (TextNormalizer.ts, lines 96–98). -/
def isEmptyText (text : String) : Bool :=
  normalizeText text == ""

/-! ## SimilarityCalculator.ts -/

/-- Row `i` of the Levenshtein dynamic-programming matrix of
SimilarityCalculator.ts (lines 242–268), given row `i - 1` as `prev`.
Entry `j + 1` compares `str2.charAt(i)` with `str1.charAt(j)` and takes
the minimum of substitution (`prev j + 1`), insertion (current row at
`j`, plus 1) and deletion (`prev (j + 1) + 1`). -/
def levRow (s1 s2 : List Char) (prev : Nat → Nat) (i : Nat) : Nat → Nat
  | 0 => i + 1
  | j + 1 =>
    if s2.getD i ' ' == s1.getD j ' ' then prev j
    else min (prev j + 1) (min (levRow s1 s2 prev i j + 1) (prev (j + 1) + 1))

/-- The full matrix: `levMatrix s1 s2 i j` is `matrix[i][j]` of the
source, the edit distance between the first `i` characters of `s2` and
the first `j` characters of `s1`. -/
def levMatrix (s1 s2 : List Char) : Nat → Nat → Nat
  | 0, j => j
  | i + 1, j => levRow s1 s2 (levMatrix s1 s2 i) i j

/-- `calculateSimilarity` (SimilarityCalculator.ts, lines 233–273):
`1 - distance / max(len1, len2)`, with the edge cases of the source
handled first (both empty → 1, exactly one empty → 0). -/
def calculateSimilarity (str1 str2 : String) : ℚ :=
  let len1 := str1.length
  let len2 := str2.length
  if len1 = 0 ∧ len2 = 0 then 1
  else if len1 = 0 ∨ len2 = 0 then 0
  else 1 - (levMatrix str1.data str2.data len2 len1 : ℚ) / ((max len1 len2 : Nat) : ℚ)

/-- `isSimilar` (SimilarityCalculator.ts, lines 289–295); the source's
default threshold is `0.6`. -/
def isSimilar (str1 str2 : String) (threshold : ℚ) : Bool :=
  threshold ≤ calculateSimilarity str1 str2

/-- Loop of `findMostSimilar` (SimilarityCalculator.ts, lines 316–327):
running maximum starts at `0` and a candidate is taken only on a strict
increase. -/
def findMostSimilarGo (target : String) : List String → ℚ → Option String → Option String
  | [], _, best => best
  | candidate :: rest, maxSimilarity, best =>
    let similarity := calculateSimilarity target candidate
    if maxSimilarity < similarity then findMostSimilarGo target rest similarity (some candidate)
    else findMostSimilarGo target rest maxSimilarity best

/-- `findMostSimilar` (SimilarityCalculator.ts, lines 310–328). -/
def findMostSimilar (target : String) (candidates : List String) : Option String :=
  if candidates.isEmpty then none
  else findMostSimilarGo target candidates 0 none

/-! ## Data model (src/types: Translation, TranslationResult, LanguageOption) -/

/-- Usage example attached to a dictionary entry (type `Example`). -/
structure UsageExample where
  english : String
  klingon : String
  phonetic : Option String
  context : Option String
deriving DecidableEq

/-- Dictionary entry (type `Translation`): required `id`, `english`,
`klingon`; optional `phonetic`, `partOfSpeech`, `category`, `examples`.
The part-of-speech enumeration is kept as its string tag. -/
structure Translation where
  id : String
  english : String
  klingon : String
  phonetic : Option String
  partOfSpeech : Option String
  category : Option String
  examples : List UsageExample
deriving DecidableEq

/-- Result type (`TranslationResult`): `confidence` is a JS number,
modelled in `ℚ`. -/
structure TranslationResult where
  input : String
  output : String
  phonetic : Option String
  confidence : ℚ
  suggestions : List Translation
deriving DecidableEq

/-- Language descriptor (`LanguageOption`). -/
structure LanguageOption where
  code : String
  name : String
  flag : String
  direction : String
deriving DecidableEq

/-- Argument record of `translateText` (`TranslationOptions`). -/
structure TranslationOptions where
  text : String
  fromLanguage : String
  toLanguage : String
deriving DecidableEq

/-- The two values of the `'english' | 'klingon'` field selector. -/
inductive SourceField where
  | english
  | klingon
deriving DecidableEq

/-- Dynamic field access `translation[sourceField]`. -/
def getField (t : Translation) : SourceField → String
  | .english => t.english
  | .klingon => t.klingon

/-! ## DictionaryMatcher.ts -/

/-- Internal pair of `findMatches` (interface `MatchResult`). -/
structure MatchResult where
  translation : Translation
  similarity : ℚ
deriving DecidableEq

/-- `calculateMatchSimilarity` (DictionaryMatcher.ts, lines 98–116):
exact tier 1.0, partial tier 0.9, fuzzy tier the raw similarity. -/
def calculateMatchSimilarity (normalizedInput sourceText : String) : ℚ :=
  let normalizedSource := normalizeText sourceText
  if isExactMatch normalizedInput normalizedSource then 1
  else if containsText normalizedInput normalizedSource then 9/10
  else calculateSimilarity normalizedInput normalizedSource

/-- Loop body of `findMatches` for one dictionary entry: skip entries
whose selected field is empty (falsy), otherwise keep the entry exactly
when its assigned similarity is strictly above `0.6`. -/
def matchCandidate (normalizedInput : String) (sourceField : SourceField)
    (translation : Translation) : Option MatchResult :=
  let sourceText := getField translation sourceField
  if sourceText == "" then none
  else
    let similarity := calculateMatchSimilarity normalizedInput sourceText
    if 3/5 < similarity then some ⟨translation, similarity⟩ else none

/-- Insertion step of the stable descending sort. -/
def insertDesc (m : MatchResult) : List MatchResult → List MatchResult
  | [] => [m]
  | x :: xs => if x.similarity ≤ m.similarity then m :: x :: xs else x :: insertDesc m xs

/-- Model of `.sort((a, b) => b.similarity - a.similarity)`.  JavaScript's
`Array.prototype.sort` is stable, and all stable sorts under the same key
produce the same list, so a stable insertion sort (an element moves ahead
of another only on strictly larger similarity) is an exact model. -/
def sortDesc : List MatchResult → List MatchResult
  | [] => []
  | x :: xs => insertDesc x (sortDesc xs)

/-- `findMatches` (DictionaryMatcher.ts, lines 61–89): empty trimmed
input short-circuits to `[]`; otherwise score every entry, keep those
above the threshold, sort descending by similarity and return the
entries. -/
def findMatches (input : String) (dictionary : List Translation)
    (sourceField : SourceField) : List Translation :=
  if trimL input.data == [] then []
  else
    let normalizedInput := normalizeText input
    let matchList := dictionary.filterMap (matchCandidate normalizedInput sourceField)
    (sortDesc matchList).map (fun m => m.translation)

/-- Similarity that `findMatches` assigns to an entry (abbreviation used
by the theorems below). -/
def assignedSim (input : String) (sourceField : SourceField) (t : Translation) : ℚ :=
  calculateMatchSimilarity (normalizeText input) (getField t sourceField)

/-! ## TranslationProcessor.ts -/

/-- `createEmptyResult` (TranslationProcessor.ts, lines 94–99). -/
def createEmptyResult (input : String) : TranslationResult :=
  ⟨input, "", none, 0, []⟩

/-- `createUnknownResult` (TranslationProcessor.ts, lines 114–119):
bracket-wrapped input, confidence 0. -/
def createUnknownResult (input : String) : TranslationResult :=
  ⟨input, "[" ++ input ++ "]", none, 0, []⟩

/-- `processTranslation` (TranslationProcessor.ts, lines 50–86).  The
target and source fields are chosen from `sourceLanguage.code`; the
confidence is recomputed from the raw similarity of the normalized input
and the best match's source field; suggestions are `matches.slice(1, 4)`.
The `targetLanguage` parameter is unused in the source (reserved). -/
def processTranslation (input : String) (matchList : List Translation)
    (sourceLanguage _targetLanguage : LanguageOption) : TranslationResult :=
  if isEmptyText input then createEmptyResult input
  else
    match matchList with
    | [] => createUnknownResult input
    | bestMatch :: rest =>
      let targetField : SourceField :=
        if sourceLanguage.code == "en" then .klingon else .english
      let sourceField : SourceField :=
        if sourceLanguage.code == "en" then .english else .klingon
      let confidence :=
        calculateSimilarity (normalizeText input) (normalizeText (getField bestMatch sourceField))
      ⟨input, getField bestMatch targetField,
        if targetField == SourceField.klingon then bestMatch.phonetic else none,
        confidence, rest.take 3⟩

/-! ## LanguageConfig.ts and translationService.ts -/

/-- `languageOptions` (LanguageConfig.ts, lines 40–53). -/
def languageOptions : List LanguageOption :=
  [⟨"en", "English", "🇺🇸", "ltr"⟩,
   ⟨"tlh", "Klingon (tlhIngan Hol)", "🖖", "ltr"⟩]

/-- `isLanguageSupported` (LanguageConfig.ts, lines 101–103): membership
of the *code* among the supported language options. -/
def isLanguageSupported (code : String) : Bool :=
  languageOptions.any (fun lang => lang.code == code)

/-- `createErrorResult` (translationService.ts, lines 62–72): the message
is dropped; the shape is identical to the empty-input result. -/
def createErrorResult (_message input : String) : TranslationResult :=
  ⟨input, "", none, 0, []⟩

/-- `translateText` (translationService.ts, lines 100–137).  The
dictionary (the module constant `klingonDictionary`, whose data file is
external to the engine) is passed explicitly. -/
def translateText (dictionary : List Translation) (options : TranslationOptions) :
    TranslationResult :=
  if isEmptyText options.text then createErrorResult "Empty input text" options.text
  else if !isLanguageSupported options.fromLanguage || !isLanguageSupported options.toLanguage then
    createErrorResult "Unsupported language pair" options.text
  else
    let sourceField : SourceField :=
      if lowerStr options.fromLanguage == "klingon" then .klingon else .english
    let matchList := findMatches options.text dictionary sourceField
    let sourceLang : LanguageOption :=
      ⟨if options.fromLanguage == "klingon" then "tlh" else "en",
       if options.fromLanguage == "klingon" then "Klingon" else "English",
       if options.fromLanguage == "klingon" then "🖖" else "🇺🇸",
       "ltr"⟩
    let targetLang : LanguageOption :=
      ⟨if options.toLanguage == "klingon" then "tlh" else "en",
       if options.toLanguage == "klingon" then "Klingon" else "English",
       if options.toLanguage == "klingon" then "🖖" else "🇺🇸",
       "ltr"⟩
    processTranslation options.text matchList sourceLang targetLang


/-! ## Predicates used by the normalization proofs -/

/-- Every character is a fixed point of the lowercase map. -/
def Lowered (l : List Char) : Prop :=
  ∀ c ∈ l, jsToLower c = c

/-- No character belongs to the removed punctuation set. -/
def NoPunct (l : List Char) : Prop :=
  ∀ c ∈ l, isPunctToRemove c = false

/-- Every whitespace character is a plain space. -/
def WsSpace (l : List Char) : Prop :=
  ∀ c ∈ l, jsIsWs c = true → c = ' '

/-- No two adjacent whitespace characters. -/
def NoWsRun (l : List Char) : Prop :=
  l.Chain' (fun a b => jsIsWs a = true → jsIsWs b = false)

/-- The first character, when present, is not whitespace. -/
def HeadNonWs (l : List Char) : Prop :=
  ∀ c ∈ l.head?, jsIsWs c = false

/-! ## Range of the similarity score -/

/-- Each matrix row is bounded: entry `j` of row `i + 1` is at most
`max (i + 1) j`, provided row `i` is bounded the same way. -/
theorem levRow_le_max (s1 s2 : List Char) (prev : Nat → Nat) (i : Nat)
    (h : ∀ j, prev j ≤ max i j) : ∀ j, levRow s1 s2 prev i j ≤ max (i + 1) j := by
  intro j
  induction j with
  | zero => simp [levRow]
  | succ j ih =>
    have h1 := h j
    have h2 := h (j + 1)
    simp only [levRow]
    split
    · omega
    · omega

/-- The Levenshtein matrix entry never exceeds the larger index: at most
`max i j` edits turn a length-`i` prefix into a length-`j` prefix. -/
theorem levMatrix_le_max (s1 s2 : List Char) : ∀ i j, levMatrix s1 s2 i j ≤ max i j := by
  intro i
  induction i with
  | zero => intro j; simp [levMatrix]
  | succ i ih => intro j; exact levRow_le_max s1 s2 (levMatrix s1 s2 i) i ih j

/-- Range of `calculateSimilarity`: always within `[0, 1]`. -/
theorem calculateSimilarity_range (str1 str2 : String) :
    0 ≤ calculateSimilarity str1 str2 ∧ calculateSimilarity str1 str2 ≤ 1 := by
  unfold calculateSimilarity
  dsimp only
  split
  · norm_num
  · split
    · norm_num
    · rename_i hboth hone
      push_neg at hone
      obtain ⟨h1, h2⟩ := hone
      set d := levMatrix str1.data str2.data str2.length str1.length with hd
      have hdle : d ≤ max str1.length str2.length := by
        have := levMatrix_le_max str1.data str2.data str2.length str1.length
        omega
      have hMpos : 0 < ((max str1.length str2.length : Nat) : ℚ) := by
        have : 0 < max str1.length str2.length := by omega
        exact_mod_cast this
      have hcast : (d : ℚ) ≤ ((max str1.length str2.length : Nat) : ℚ) := by
        exact_mod_cast hdle
      constructor
      · have : (d : ℚ) / ((max str1.length str2.length : Nat) : ℚ) ≤ 1 :=
          (div_le_one hMpos).mpr hcast
        linarith
      · have h0 : (0 : ℚ) ≤ (d : ℚ) := by positivity
        have : 0 ≤ (d : ℚ) / ((max str1.length str2.length : Nat) : ℚ) :=
          div_nonneg h0 (le_of_lt hMpos)
        linarith

/-! ## The stable descending sort -/

/-- Inserting produces a permutation of consing. -/
theorem insertDesc_perm (m : MatchResult) (l : List MatchResult) :
    List.Perm (insertDesc m l) (m :: l) := by
  induction l with
  | nil => exact List.Perm.refl _
  | cons x xs ih =>
    simp only [insertDesc]
    split
    · exact List.Perm.refl _
    · exact ((ih.cons x).trans (List.Perm.swap m x xs))

/-- The sort permutes its input. -/
theorem sortDesc_perm (l : List MatchResult) : List.Perm (sortDesc l) l := by
  induction l with
  | nil => exact List.Perm.refl _
  | cons x xs ih => exact (insertDesc_perm x (sortDesc xs)).trans (ih.cons x)

/-- Membership is preserved by the sort. -/
theorem mem_sortDesc {m : MatchResult} {l : List MatchResult} :
    m ∈ sortDesc l ↔ m ∈ l :=
  (sortDesc_perm l).mem_iff

/-- Inserting into a descending list keeps it descending. -/
theorem insertDesc_pairwise {m : MatchResult} {l : List MatchResult}
    (h : l.Pairwise (fun a b => b.similarity ≤ a.similarity)) :
    (insertDesc m l).Pairwise (fun a b => b.similarity ≤ a.similarity) := by
  induction l with
  | nil => simp [insertDesc]
  | cons x xs ih =>
    rw [List.pairwise_cons] at h
    obtain ⟨hx, hxs⟩ := h
    simp only [insertDesc]
    split
    · rename_i hle
      rw [List.pairwise_cons]
      refine ⟨?_, List.pairwise_cons.mpr ⟨hx, hxs⟩⟩
      intro b hb
      rcases List.mem_cons.mp hb with rfl | hb2
      · exact hle
      · exact le_trans (hx b hb2) hle
    · rename_i hgt
      push_neg at hgt
      rw [List.pairwise_cons]
      refine ⟨?_, ih hxs⟩
      intro b hb
      rcases List.mem_cons.mp ((insertDesc_perm m xs).mem_iff.mp hb) with rfl | hb2
      · exact le_of_lt hgt
      · exact hx b hb2

/-- The sorted list is descending in similarity. -/
theorem sortDesc_pairwise (l : List MatchResult) :
    (sortDesc l).Pairwise (fun a b => b.similarity ≤ a.similarity) := by
  induction l with
  | nil => simp [sortDesc]
  | cons x xs ih => exact insertDesc_pairwise ih

/-- Filtering an inserted list to one similarity value commutes with the
insertion: an element is passed over only by elements of strictly larger
similarity, which a filter to the element's own value discards. -/
theorem insertDesc_filter (q : ℚ) (m : MatchResult) (l : List MatchResult) :
    (insertDesc m l).filter (fun x => decide (x.similarity = q)) =
      if m.similarity = q then m :: l.filter (fun x => decide (x.similarity = q))
      else l.filter (fun x => decide (x.similarity = q)) := by
  induction l with
  | nil => by_cases h : m.similarity = q <;> simp [insertDesc, h]
  | cons x xs ih =>
    simp only [insertDesc]
    split
    · by_cases h : m.similarity = q <;> simp [List.filter_cons, h]
    · rename_i hgt
      push_neg at hgt
      by_cases h : m.similarity = q
      · have hx : ¬ x.similarity = q := by
          intro hq
          rw [← h] at hq
          exact absurd (hq ▸ hgt) (lt_irrefl _)
        simp [List.filter_cons, hx, ih, h]
      · by_cases hx : x.similarity = q <;> simp [List.filter_cons, hx, ih, h]

/-- Stability of the sort: the sublist of entries carrying one fixed
similarity value is unchanged by sorting. -/
theorem sortDesc_filter (q : ℚ) (l : List MatchResult) :
    (sortDesc l).filter (fun x => decide (x.similarity = q)) =
      l.filter (fun x => decide (x.similarity = q)) := by
  induction l with
  | nil => rfl
  | cons x xs ih =>
    simp only [sortDesc]
    rw [insertDesc_filter]
    by_cases h : x.similarity = q <;> simp [List.filter_cons, h, ih]

/-- Characterization of the per-entry loop body of `findMatches`. -/
theorem matchCandidate_eq_some {normalizedInput : String} {f : SourceField}
    {t : Translation} {m : MatchResult} :
    matchCandidate normalizedInput f t = some m ↔
      getField t f ≠ "" ∧
      3/5 < calculateMatchSimilarity normalizedInput (getField t f) ∧
      m = ⟨t, calculateMatchSimilarity normalizedInput (getField t f)⟩ := by
  unfold matchCandidate
  dsimp only
  split
  · rename_i h
    rw [beq_iff_eq] at h
    simp [h]
  · rename_i h
    rw [beq_iff_eq] at h
    split
    · rename_i h2
      simp only [Option.some.injEq]
      constructor
      · intro he
        exact ⟨h, h2, he.symm⟩
      · intro ⟨_, _, he⟩
        exact he.symm
    · rename_i h2
      constructor
      · intro he
        exact Option.noConfusion he
      · rintro ⟨-, hlt, -⟩
        exact absurd hlt h2

/-- Membership in `findMatches`: exactly the dictionary entries with a
non-empty selected field whose assigned similarity is strictly above
`0.6`, and only when the trimmed input is non-empty. -/
theorem mem_findMatches {input : String} {dict : List Translation} {f : SourceField}
    {t : Translation} :
    t ∈ findMatches input dict f ↔
      trimL input.data ≠ [] ∧ t ∈ dict ∧ getField t f ≠ "" ∧
        3/5 < assignedSim input f t := by
  unfold findMatches
  dsimp only
  split
  · rename_i h
    rw [beq_iff_eq] at h
    simp [h]
  · rename_i h
    rw [beq_iff_eq] at h
    simp only [List.mem_map]
    constructor
    · rintro ⟨m, hm, rfl⟩
      obtain ⟨a, ha, hma⟩ := List.mem_filterMap.mp (mem_sortDesc.mp hm)
      obtain ⟨h1, h2, rfl⟩ := matchCandidate_eq_some.mp hma
      exact ⟨h, ha, h1, h2⟩
    · rintro ⟨-, ha, h1, h2⟩
      refine ⟨⟨t, assignedSim input f t⟩, ?_, rfl⟩
      exact mem_sortDesc.mpr
        (List.mem_filterMap.mpr ⟨t, ha, matchCandidate_eq_some.mpr ⟨h1, h2, rfl⟩⟩)

/-- Entries returned by `findMatches` come from the dictionary. -/
theorem findMatches_subset {input : String} {dict : List Translation} {f : SourceField}
    {t : Translation} (h : t ∈ findMatches input dict f) : t ∈ dict :=
  (mem_findMatches.mp h).2.1

set_option maxHeartbeats 1000000 in
/-- Every internal match pair carries the similarity that
`calculateMatchSimilarity` assigns to its entry. -/
theorem mem_matchList_sim {input : String} {dict : List Translation} {f : SourceField}
    {m : MatchResult}
    (hm : m ∈ dict.filterMap (matchCandidate (normalizeText input) f)) :
    m.similarity = assignedSim input f m.translation ∧ m.translation ∈ dict := by
  obtain ⟨a, ha, hma⟩ := List.mem_filterMap.mp hm
  obtain ⟨-, -, rfl⟩ := matchCandidate_eq_some.mp hma
  exact ⟨rfl, ha⟩

/-! ## Behaviour of the findMostSimilar loop -/

/-- If no candidate beats the running maximum, the loop keeps its current
best. -/
theorem findMostSimilarGo_all_le {target : String} {cs : List String} {maxS : ℚ}
    {best : Option String} (h : ∀ c ∈ cs, calculateSimilarity target c ≤ maxS) :
    findMostSimilarGo target cs maxS best = best := by
  induction cs generalizing maxS best with
  | nil => rfl
  | cons c cs ih =>
    simp only [findMostSimilarGo]
    rw [if_neg (not_lt.mpr (h c (List.mem_cons_self c cs)))]
    exact ih fun x hx => h x (List.mem_cons_of_mem c hx)

/-- Once the loop holds a `some`, it returns a `some`. -/
theorem findMostSimilarGo_some {target : String} {cs : List String} {maxS : ℚ}
    {b : String} : ∃ r, findMostSimilarGo target cs maxS (some b) = some r := by
  induction cs generalizing maxS b with
  | nil => exact ⟨b, rfl⟩
  | cons c cs ih =>
    simp only [findMostSimilarGo]
    split
    · exact ih
    · exact ih

/-- If some candidate beats the running maximum, the loop returns a
candidate. -/
theorem findMostSimilarGo_exists {target : String} {cs : List String} {maxS : ℚ}
    {best : Option String} (h : ∃ c ∈ cs, maxS < calculateSimilarity target c) :
    ∃ r, findMostSimilarGo target cs maxS best = some r := by
  induction cs generalizing maxS best with
  | nil => obtain ⟨c, hc, -⟩ := h; exact absurd hc (List.not_mem_nil c)
  | cons c cs ih =>
    simp only [findMostSimilarGo]
    split
    · exact findMostSimilarGo_some
    · rename_i hno
      obtain ⟨x, hx, hlt⟩ := h
      rcases List.mem_cons.mp hx with rfl | hx2
      · exact absurd hlt hno
      · exact ih ⟨x, hx2, hlt⟩

/-- Full description of a `some` result of the loop: either no update ever
happened and the initial best is returned, or the result is the first
candidate attaining the maximum: it strictly dominates the running maximum
and everything before it, and nothing after it exceeds it. -/
theorem findMostSimilarGo_spec {target : String} {cs : List String} {maxS : ℚ}
    {best : Option String} {r : String}
    (h : findMostSimilarGo target cs maxS best = some r) :
    (best = some r ∧ ∀ y ∈ cs, calculateSimilarity target y ≤ maxS) ∨
    (∃ l1 l2, cs = l1 ++ r :: l2 ∧ maxS < calculateSimilarity target r ∧
      (∀ x ∈ l1, calculateSimilarity target x < calculateSimilarity target r) ∧
      (∀ y ∈ l2, calculateSimilarity target y ≤ calculateSimilarity target r)) := by
  induction cs generalizing maxS best with
  | nil => exact Or.inl ⟨h, by simp⟩
  | cons c cs ih =>
    simp only [findMostSimilarGo] at h
    split at h
    · rename_i hlt
      rcases ih h with ⟨he, hall⟩ | ⟨l1, l2, heq, h1, h2, h3⟩
      · obtain rfl : c = r := Option.some.inj he
        exact Or.inr ⟨[], cs, rfl, hlt, by simp, hall⟩
      · refine Or.inr ⟨c :: l1, l2, by rw [heq, List.cons_append], lt_trans hlt h1, ?_, h3⟩
        intro x hx
        rcases List.mem_cons.mp hx with rfl | hx2
        · exact h1
        · exact h2 x hx2
    · rename_i hge
      rw [not_lt] at hge
      rcases ih h with ⟨he, hall⟩ | ⟨l1, l2, heq, h1, h2, h3⟩
      · refine Or.inl ⟨he, ?_⟩
        intro y hy
        rcases List.mem_cons.mp hy with rfl | hy2
        · exact hge
        · exact hall y hy2
      · refine Or.inr ⟨c :: l1, l2, by rw [heq, List.cons_append], h1, ?_, h3⟩
        intro x hx
        rcases List.mem_cons.mp hx with rfl | hx2
        · exact lt_of_le_of_lt hge h1
        · exact h2 x hx2

/-! ## Shape of the processor and orchestrator results -/

/-- Case description of `processTranslation`: the three states of the
result machine, with the exact output, confidence and suggestions of
each. -/
theorem processTranslation_cases (input : String) (matchList : List Translation)
    (sl tl : LanguageOption) :
    (isEmptyText input = true ∧
      processTranslation input matchList sl tl = ⟨input, "", none, 0, []⟩) ∨
    (isEmptyText input = false ∧ matchList = [] ∧
      processTranslation input matchList sl tl = ⟨input, "[" ++ input ++ "]", none, 0, []⟩) ∨
    (isEmptyText input = false ∧ ∃ bm rest, matchList = bm :: rest ∧
      processTranslation input matchList sl tl =
        ⟨input,
         getField bm (if sl.code == "en" then SourceField.klingon else SourceField.english),
         if (if sl.code == "en" then SourceField.klingon else SourceField.english) ==
             SourceField.klingon then bm.phonetic else none,
         calculateSimilarity (normalizeText input)
           (normalizeText (getField bm
             (if sl.code == "en" then SourceField.english else SourceField.klingon))),
         rest.take 3⟩) := by
  by_cases h : isEmptyText input
  · exact Or.inl ⟨h, by simp [processTranslation, h, createEmptyResult]⟩
  · rcases matchList with _ | ⟨bm, rest⟩
    · exact Or.inr (Or.inl ⟨by simp [h], rfl,
        by simp [processTranslation, h, createUnknownResult]⟩)
    · refine Or.inr (Or.inr ⟨by simp [h], bm, rest, rfl, ?_⟩)
      simp only [processTranslation, h, Bool.false_eq_true, if_false]

/-- Case description of `translateText`: the two validation
short-circuits, and the delegating branch with the language option it
constructs. -/
theorem translateText_cases (dict : List Translation) (opts : TranslationOptions) :
    (isEmptyText opts.text = true ∧
      translateText dict opts = ⟨opts.text, "", none, 0, []⟩) ∨
    (isEmptyText opts.text = false ∧
      (isLanguageSupported opts.fromLanguage = false ∨
        isLanguageSupported opts.toLanguage = false) ∧
      translateText dict opts = ⟨opts.text, "", none, 0, []⟩) ∨
    (isEmptyText opts.text = false ∧
      isLanguageSupported opts.fromLanguage = true ∧
      isLanguageSupported opts.toLanguage = true ∧
      ∃ sl tl : LanguageOption,
        sl.code = (if opts.fromLanguage == "klingon" then "tlh" else "en") ∧
        translateText dict opts =
          processTranslation opts.text
            (findMatches opts.text dict
              (if lowerStr opts.fromLanguage == "klingon" then SourceField.klingon
               else SourceField.english)) sl tl) := by
  by_cases h : isEmptyText opts.text
  · exact Or.inl ⟨h, by simp [translateText, h, createErrorResult]⟩
  · by_cases hf : isLanguageSupported opts.fromLanguage
    · by_cases ht : isLanguageSupported opts.toLanguage
      · refine Or.inr (Or.inr ⟨by simp [h], hf, ht, ?_⟩)
        refine ⟨⟨if opts.fromLanguage == "klingon" then "tlh" else "en",
                 if opts.fromLanguage == "klingon" then "Klingon" else "English",
                 if opts.fromLanguage == "klingon" then "🖖" else "🇺🇸", "ltr"⟩,
                ⟨if opts.toLanguage == "klingon" then "tlh" else "en",
                 if opts.toLanguage == "klingon" then "Klingon" else "English",
                 if opts.toLanguage == "klingon" then "🖖" else "🇺🇸", "ltr"⟩, rfl, ?_⟩
        simp only [translateText, h, Bool.false_eq_true, if_false, hf, ht, Bool.not_true,
          Bool.or_self, Bool.false_or]
      · refine Or.inr (Or.inl ⟨by simp [h], Or.inr (by simp [ht]), ?_⟩)
        simp [translateText, h, ht, createErrorResult]
    · refine Or.inr (Or.inl ⟨by simp [h], Or.inl (by simp [hf]), ?_⟩)
      simp [translateText, h, hf, createErrorResult]

/-- A bracket-wrapped string is never empty. -/
theorem wrap_ne_empty (s : String) : "[" ++ s ++ "]" ≠ "" := by
  intro h
  have hd : ("[" ++ s ++ "]").data = "".data := congrArg String.data h
  rw [String.data_append, String.data_append] at hd
  simp at hd

/-! ## Normalization: invariants of the output and fixed points -/

/-- Converting a valid scalar value to a character and back is the
identity. -/
theorem toNat_ofNat_valid {n : Nat} (h : n.isValidChar) : (Char.ofNat n).toNat = n := by
  simp [Char.ofNat, h, Char.ofNatAux, Char.toNat, UInt32.toNat]

/-- The lowercase map is idempotent on characters. -/
theorem jsToLower_fix (c : Char) : jsToLower (jsToLower c) = jsToLower c := by
  unfold jsToLower
  by_cases h : 65 ≤ c.toNat ∧ c.toNat ≤ 90
  · rw [if_pos h]
    have hv : (c.toNat + 32).isValidChar := Or.inl (by omega)
    have ht : (Char.ofNat (c.toNat + 32)).toNat = c.toNat + 32 := toNat_ofNat_valid hv
    rw [if_neg]
    rw [ht]
    omega
  · rw [if_neg h, if_neg h]

/-- Characters of the collapsed list come from the input or are spaces. -/
theorem mem_collapseGo {c : Char} {b : Bool} {l : List Char}
    (h : c ∈ collapseGo b l) : c ∈ l ∨ c = ' ' := by
  induction l generalizing b with
  | nil => simp [collapseGo] at h
  | cons d ds ih =>
    simp only [collapseGo] at h
    split at h
    · split at h
      · rcases ih h with h2 | h2
        · exact Or.inl (List.mem_cons_of_mem d h2)
        · exact Or.inr h2
      · rcases List.mem_cons.mp h with rfl | h2
        · exact Or.inr rfl
        · rcases ih h2 with h3 | h3
          · exact Or.inl (List.mem_cons_of_mem d h3)
          · exact Or.inr h3
    · rcases List.mem_cons.mp h with rfl | h2
      · exact Or.inl (List.mem_cons_self c ds)
      · rcases ih h2 with h3 | h3
        · exact Or.inl (List.mem_cons_of_mem d h3)
        · exact Or.inr h3

/-- Whitespace in the collapsed list is always a plain space. -/
theorem collapseGo_wsSpace (b : Bool) (l : List Char) : WsSpace (collapseGo b l) := by
  induction l generalizing b with
  | nil => intro c hc; simp [collapseGo] at hc
  | cons d ds ih =>
    intro c hc hwc
    simp only [collapseGo] at hc
    split at hc
    · split at hc
      · exact ih true c hc hwc
      · rcases List.mem_cons.mp hc with rfl | h2
        · rfl
        · exact ih true c h2 hwc
    · rename_i hd
      rcases List.mem_cons.mp hc with rfl | h2
      · exact absurd hwc (by simp [hd])
      · exact ih false c h2 hwc

/-- The collapsed list in skipping state starts with a non-space. -/
theorem collapseGo_headNonWs (l : List Char) : HeadNonWs (collapseGo true l) := by
  induction l with
  | nil => intro c hc; simp [collapseGo] at hc
  | cons d ds ih =>
    intro c hc
    simp only [collapseGo] at hc
    split at hc
    · exact ih c hc
    · rename_i hd
      simp only [List.head?_cons, Option.mem_def, Option.some.injEq] at hc
      subst hc
      simpa using hd

/-- The collapsed list has no two adjacent whitespace characters. -/
theorem collapseGo_noWsRun (b : Bool) (l : List Char) : NoWsRun (collapseGo b l) := by
  induction l generalizing b with
  | nil => simp [collapseGo, NoWsRun]
  | cons d ds ih =>
    simp only [collapseGo]
    split
    · split
      · exact ih true
      · refine List.chain'_cons'.mpr ⟨?_, ih true⟩
        intro y hy _
        exact collapseGo_headNonWs ds y hy
    · rename_i hd
      refine List.chain'_cons'.mpr ⟨?_, ih false⟩
      intro y _ hdy
      exact absurd hdy (by simp [hd])

/-- The trimmed list is an infix of the original list. -/
theorem trimL_middle (l : List Char) : trimL l <:+: l := by
  obtain ⟨t, ht⟩ := List.rdropWhile_prefix (l := l.dropWhile jsIsWs) (p := jsIsWs)
  obtain ⟨s, hs⟩ := List.dropWhile_suffix (l := l) jsIsWs
  refine ⟨s, t, ?_⟩
  show s ++ trimL l ++ t = l
  unfold trimL
  rw [List.append_assoc, ht, hs]

/-- The trimmed list is a sublist of the original list. -/
theorem trimL_sublist (l : List Char) : List.Sublist (trimL l) l :=
  (trimL_middle l).sublist

/-- The trimmed list starts with a non-whitespace character. -/
theorem headNonWs_trimL (l : List Char) : HeadNonWs (trimL l) := by
  intro c hc
  obtain ⟨t, ht⟩ := List.rdropWhile_prefix (l := l.dropWhile jsIsWs) (p := jsIsWs)
  have hc2 : (List.rdropWhile jsIsWs (l.dropWhile jsIsWs)).head? = some c := hc
  have hhead : (l.dropWhile jsIsWs).head? = some c := by
    rw [← ht, List.head?_append, hc2]
    rfl
  have h3 := List.head?_dropWhile_not jsIsWs l
  rw [hhead] at h3
  exact h3

/-- The trimmed list ends with a non-whitespace character. -/
theorem lastNonWs_trimL (l : List Char) : ∀ c ∈ (trimL l).getLast?, jsIsWs c = false := by
  intro c hc
  have hne : trimL l ≠ [] := by
    intro he
    rw [he] at hc
    exact Option.noConfusion hc
  have hlast : ¬ jsIsWs ((trimL l).getLast hne) = true :=
    List.rdropWhile_last_not (l := l.dropWhile jsIsWs) (p := jsIsWs) hne
  have hval : (trimL l).getLast hne = c := by
    have hg := List.getLast?_eq_getLast (trimL l) hne
    rw [hg] at hc
    exact Option.some.inj hc
  rw [hval] at hlast
  simpa using hlast

/-- Dropping leading whitespace does nothing when the head is not
whitespace. -/
theorem dropWhile_eq_self_of_headNonWs {l : List Char} (h : HeadNonWs l) :
    l.dropWhile jsIsWs = l := by
  cases l with
  | nil => rfl
  | cons c cs =>
    have hc : jsIsWs c = false := h c rfl
    simp [List.dropWhile_cons, hc]

/-- Trimming does nothing when neither end is whitespace. -/
theorem trimL_eq_self {l : List Char} (h1 : HeadNonWs l)
    (h2 : ∀ c ∈ l.getLast?, jsIsWs c = false) : trimL l = l := by
  unfold trimL
  rw [dropWhile_eq_self_of_headNonWs h1]
  rw [List.rdropWhile_eq_self_iff]
  intro hl
  have h3 := h2 (l.getLast hl) (by rw [List.getLast?_eq_getLast l hl]; rfl)
  simp [h3]

/-- The punctuation filter does nothing on punctuation-free lists. -/
theorem filter_eq_self_of_noPunct {l : List Char} (h : NoPunct l) :
    l.filter (fun c => !isPunctToRemove c) = l :=
  List.filter_eq_self.mpr fun a ha => by rw [h a ha]; rfl

/-- The lowercase map does nothing on lowered lists. -/
theorem map_eq_self_of_lowered {l : List Char} (h : Lowered l) :
    l.map jsToLower = l := by
  induction l with
  | nil => rfl
  | cons c cs ih =>
    rw [List.map_cons, h c (List.mem_cons_self c cs),
      ih fun x hx => h x (List.mem_cons_of_mem c hx)]

/-- Collapsing does nothing on lists with no whitespace runs whose
whitespace is all plain spaces; in skipping state this additionally needs
a non-whitespace head. -/
theorem collapseGo_eq_self {l : List Char} (h1 : NoWsRun l) (h2 : WsSpace l) :
    collapseGo false l = l ∧ (HeadNonWs l → collapseGo true l = l) := by
  induction l with
  | nil => exact ⟨rfl, fun _ => rfl⟩
  | cons c cs ih =>
    have htail1 : NoWsRun cs := h1.tail
    have htail2 : WsSpace cs := fun x hx => h2 x (List.mem_cons_of_mem c hx)
    obtain ⟨ihF, ihT⟩ := ih htail1 htail2
    by_cases hc : jsIsWs c
    · have hsp : c = ' ' := h2 c (List.mem_cons_self c cs) hc
      have hH : HeadNonWs cs := by
        intro y hy
        exact (List.chain'_cons'.mp h1).1 y hy hc
      have hstep : collapseGo false (c :: cs) = ' ' :: collapseGo true cs := by
        simp [collapseGo, hc]
      constructor
      · rw [hstep, ihT hH, hsp]
      · intro hHead
        exact absurd (hHead c rfl) (by simp [hc])
    · have hstepF : collapseGo false (c :: cs) = c :: collapseGo false cs := by
        simp [collapseGo, hc]
      have hstepT : collapseGo true (c :: cs) = c :: collapseGo false cs := by
        simp [collapseGo, hc]
      exact ⟨by rw [hstepF, ihF], fun _ => by rw [hstepT, ihF]⟩

/-- The invariants that one application of `normalizeText` establishes. -/
theorem normalizeText_invariants (s : String) :
    Lowered (normalizeText s).data ∧ NoPunct (normalizeText s).data ∧
      NoWsRun (normalizeText s).data ∧ WsSpace (normalizeText s).data := by
  unfold normalizeText
  dsimp only
  refine ⟨?_, ?_, collapseGo_noWsRun false _, collapseGo_wsSpace false _⟩
  · intro c hc
    rcases mem_collapseGo hc with h | rfl
    · have h2 := List.mem_filter.mp h
      have h3 := (trimL_sublist _).subset h2.1
      obtain ⟨x, -, rfl⟩ := List.mem_map.mp h3
      exact jsToLower_fix x
    · decide
  · intro c hc
    rcases mem_collapseGo hc with h | rfl
    · have h2 := List.mem_filter.mp h
      simpa using h2.2
    · decide

/-- The second application of `normalizeText` only trims the result of
the first. -/
theorem normalizeText_normalizeText (s : String) :
    normalizeText (normalizeText s) = ⟨trimL (normalizeText s).data⟩ := by
  obtain ⟨hL, hP, hR, hW⟩ := normalizeText_invariants s
  set w1 := normalizeText s with hw1
  show normalizeText w1 = ⟨trimL w1.data⟩
  unfold normalizeText
  dsimp only
  rw [map_eq_self_of_lowered hL]
  rw [filter_eq_self_of_noPunct fun c hc => hP c ((trimL_sublist _).subset hc)]
  have hR1 := List.Chain'.infix hR (trimL_middle _)
  rw [(collapseGo_eq_self hR1 fun c hc => hW c ((trimL_sublist _).subset hc)).1]

/-- From the second application on, `normalizeText` is a fixed point. -/
theorem normalizeText_third (s : String) :
    normalizeText (normalizeText (normalizeText s)) = normalizeText (normalizeText s) := by
  obtain ⟨hL, hP, hR, hW⟩ := normalizeText_invariants s
  rw [normalizeText_normalizeText s]
  set w2 : List Char := trimL (normalizeText s).data with hw2
  have hL2 : Lowered w2 := fun c hc => hL c ((trimL_sublist _).subset hc)
  have hP2 : NoPunct w2 := fun c hc => hP c ((trimL_sublist _).subset hc)
  have hR2 : NoWsRun w2 := List.Chain'.infix hR (trimL_middle _)
  have hW2 : WsSpace w2 := fun c hc => hW c ((trimL_sublist _).subset hc)
  have hH2 : HeadNonWs w2 := headNonWs_trimL _
  have hLast2 : ∀ c ∈ w2.getLast?, jsIsWs c = false := lastNonWs_trimL _
  show normalizeText ⟨w2⟩ = ⟨w2⟩
  unfold normalizeText
  dsimp only
  rw [map_eq_self_of_lowered hL2]
  rw [trimL_eq_self hH2 hLast2]
  rw [filter_eq_self_of_noPunct hP2]
  rw [(collapseGo_eq_self hR2 hW2).1]

/-! ## Further helpers: empty needles, failed candidates, stability -/

/-- An empty needle is contained in every haystack. -/
theorem includesL_nil (hay : List Char) : includesL hay [] = true := by
  cases hay with
  | nil => rfl
  | cons h hs => simp [includesL, startsWithL]

/-- When the normalized input is empty, every entry text is assigned at
least the partial-tier similarity: the empty string is contained in
everything under the symmetric containment test. -/
theorem calculateMatchSimilarity_empty_input (s : String) :
    9/10 ≤ calculateMatchSimilarity "" s := by
  unfold calculateMatchSimilarity
  dsimp only
  by_cases hex : isExactMatch "" (normalizeText s)
  · rw [if_pos hex]
    norm_num
  · rw [if_neg hex]
    have hcon : containsText "" (normalizeText s) = true := by
      unfold containsText jsIncludes
      dsimp only
      have h0 : (normalizeText "").data = ([] : List Char) := rfl
      rw [h0, includesL_nil, Bool.or_true]
    rw [if_pos hcon]

/-- Characterization of a skipped dictionary entry. -/
theorem matchCandidate_eq_none {normalizedInput : String} {f : SourceField}
    {t : Translation} :
    matchCandidate normalizedInput f t = none ↔
      getField t f = "" ∨
      ¬ 3/5 < calculateMatchSimilarity normalizedInput (getField t f) := by
  unfold matchCandidate
  dsimp only
  split
  · rename_i h
    rw [beq_iff_eq] at h
    simp [h]
  · rename_i h
    rw [beq_iff_eq] at h
    split
    · rename_i h2
      simp [h, h2]
    · rename_i h2
      simp [h, h2]

set_option maxHeartbeats 1600000 in
/-- Filtering the candidate list to one similarity value and reading the
entries back out is a plain filter on the dictionary. -/
theorem filterMap_filter_eq (input : String) (f : SourceField) (q : ℚ)
    (dict : List Translation) :
    ((dict.filterMap (matchCandidate (normalizeText input) f)).filter
        (fun m => decide (m.similarity = q))).map (fun m => m.translation) =
      dict.filter (fun t => !(getField t f == "") &&
        decide (3/5 < assignedSim input f t) && decide (assignedSim input f t = q)) := by
  induction dict with
  | nil => rfl
  | cons t ts ih =>
    rw [List.filterMap_cons]
    cases hmc : matchCandidate (normalizeText input) f t with
    | none =>
      rcases matchCandidate_eq_none.mp hmc with hf | hs
      · have hpred : (!(getField t f == "") &&
            decide (3/5 < assignedSim input f t) && decide (assignedSim input f t = q)) = false := by
          simp [hf]
        rw [List.filter_cons, hpred]
        simpa using ih
      · have hpred : (!(getField t f == "") &&
            decide (3/5 < assignedSim input f t) && decide (assignedSim input f t = q)) = false := by
          have : decide (3/5 < assignedSim input f t) = false := by
            simpa [assignedSim] using hs
          simp [this]
        rw [List.filter_cons, hpred]
        simpa using ih
    | some m =>
      obtain ⟨h1, h2, rfl⟩ := matchCandidate_eq_some.mp hmc
      by_cases hq : assignedSim input f t = q
      · have hlt : 3/5 < assignedSim input f t := h2
        have hpred : (!(getField t f == "") &&
            decide (3/5 < assignedSim input f t) && decide (assignedSim input f t = q)) = true := by
          simp only [Bool.and_eq_true]
          refine ⟨⟨?_, decide_eq_true hlt⟩, decide_eq_true hq⟩
          simp [h1]
        have hdq : decide ((⟨t, calculateMatchSimilarity (normalizeText input)
            (getField t f)⟩ : MatchResult).similarity = q) = true := by
          simpa [assignedSim] using hq
        rw [List.filter_cons, List.filter_cons, hpred, hdq]
        simp only [if_true]
        rw [List.map_cons, ih]
      · have hpred : (!(getField t f == "") &&
            decide (3/5 < assignedSim input f t) && decide (assignedSim input f t = q)) = false := by
          simp [hq]
        have hdq : decide ((⟨t, calculateMatchSimilarity (normalizeText input)
            (getField t f)⟩ : MatchResult).similarity = q) = false := by
          simpa [assignedSim] using hq
        rw [List.filter_cons, List.filter_cons, hpred, hdq]
        simpa using ih

/-! ## The claims -/

/-- C1: the spec's exact-match scenario asserts that, with a dictionary
containing the entry english "hello" / klingon "nuqneH", the call
`translateText {text: "Hello!", fromLanguage: "english",
toLanguage: "klingon"}` returns output "nuqneH" with confidence 1.0.  The
code instead returns the error shape (output "", confidence 0), because
`isLanguageSupported` tests the codes "en"/"tlh" while `translateText`'s
own documentation and its caller pass the names "english"/"klingon"; with
the codes "en"/"tlh" the very same call does return "nuqneH" at
confidence 1.  This theorem evaluates the code at the failing input. -/
theorem claim_C1 :
    isLanguageSupported "english" = false ∧
    translateText [⟨"1", "hello", "nuqneH", some "NOOK-neh", none, none, []⟩]
        ⟨"Hello!", "english", "klingon"⟩ = ⟨"Hello!", "", none, 0, []⟩ ∧
    translateText [⟨"1", "hello", "nuqneH", some "NOOK-neh", none, none, []⟩]
        ⟨"Hello!", "en", "tlh"⟩ = ⟨"Hello!", "nuqneH", some "NOOK-neh", 1, []⟩ := by
  refine ⟨by decide, by with_unfolding_all rfl, by with_unfolding_all rfl⟩

/-- C3 counterexample: normalization is not idempotent.  For the input
". a" the first pass turns it into " a" (removing the dot exposes a
leading space that was trimmed before punctuation removal), and the
second pass trims that space. -/
theorem claim_C3_counterexample :
    normalizeText (normalizeText ". a") ≠ normalizeText ". a" := by
  decide

/-- C3 amended: normalization is idempotent from the second application
on: `normalizeText (normalizeText (normalizeText s)) =
normalizeText (normalizeText s)` for every string `s` (plain idempotence
fails, e.g. at ". a"). -/
theorem claim_C3_amended (s : String) :
    normalizeText (normalizeText (normalizeText s)) = normalizeText (normalizeText s) :=
  normalizeText_third s

/-- C7: inclusion in `findMatches` requires an assigned similarity
strictly greater than 0.6; in particular the concrete entry "abcxy"
against input "abcde", whose fuzzy similarity is exactly 3/5 = 0.6, is
excluded. -/
theorem claim_C7 :
    (∀ (input : String) (dict : List Translation) (f : SourceField) (t : Translation),
      t ∈ findMatches input dict f → 3/5 < assignedSim input f t) ∧
    assignedSim "abcde" SourceField.english ⟨"2", "abcxy", "x", none, none, none, []⟩ = 3/5 ∧
    findMatches "abcde" [⟨"2", "abcxy", "x", none, none, none, []⟩] SourceField.english = [] := by
  refine ⟨?_, by with_unfolding_all rfl, by with_unfolding_all rfl⟩
  intro input dict f t ht
  exact (mem_findMatches.mp ht).2.2.2

/-- C7 witness: the universally quantified part of C7 applied to a
concrete matching entry. -/
theorem claim_C7_witness :
    3/5 < assignedSim "hello" SourceField.english
      ⟨"1", "hello", "nuqneH", none, none, none, []⟩ :=
  claim_C7.1 "hello" [⟨"1", "hello", "nuqneH", none, none, none, []⟩]
    SourceField.english ⟨"1", "hello", "nuqneH", none, none, none, []⟩
    (by with_unfolding_all exact of_decide_eq_true rfl)

/-- C9: the similarity score always lies in the closed interval [0, 1];
equivalently, the Levenshtein distance computed by the matrix never
exceeds the larger of the two lengths. -/
theorem claim_C9 (a b : String) :
    (0 ≤ calculateSimilarity a b ∧ calculateSimilarity a b ≤ 1) ∧
    levMatrix a.data b.data b.length a.length ≤ max a.length b.length := by
  refine ⟨calculateSimilarity_range a b, ?_⟩
  have h := levMatrix_le_max a.data b.data b.length a.length
  omega

/-- C10: for an input whose raw trimmed form is non-empty but whose
normalized form is empty (pure punctuation such as "..."), `findMatches`
returns exactly the entries whose searched source field is non-empty —
each receives at least the partial-tier similarity 0.9, because the empty
normalized input is contained in every entry text under the symmetric
containment test — rather than the empty list. -/
theorem claim_C10 (input : String) (dict : List Translation) (f : SourceField)
    (h1 : trimL input.data ≠ []) (h2 : normalizeText input = "") :
    (∀ t, t ∈ findMatches input dict f ↔ (t ∈ dict ∧ getField t f ≠ "")) ∧
    (∀ t ∈ dict, getField t f ≠ "" → 9/10 ≤ assignedSim input f t) := by
  have hsim : ∀ t : Translation, 9/10 ≤ assignedSim input f t := by
    intro t
    unfold assignedSim
    rw [h2]
    exact calculateMatchSimilarity_empty_input _
  constructor
  · intro t
    rw [mem_findMatches]
    constructor
    · rintro ⟨-, ht, hf, -⟩
      exact ⟨ht, hf⟩
    · rintro ⟨ht, hf⟩
      exact ⟨h1, ht, hf, lt_of_lt_of_le (by norm_num) (hsim t)⟩
  · intro t _ _
    exact hsim t

/-- C10 witness: the pure-punctuation input "..." matches the "hello"
entry at the partial tier. -/
theorem claim_C10_witness :
    9/10 ≤ assignedSim "..." SourceField.english
      ⟨"1", "hello", "nuqneH", none, none, none, []⟩ :=
  (claim_C10 "..." [⟨"1", "hello", "nuqneH", none, none, none, []⟩] SourceField.english
    (by decide) (by decide)).2 ⟨"1", "hello", "nuqneH", none, none, none, []⟩
    (by decide) (by decide)

/-- C4 counterexample: `findMostSimilar` returns `null` for a non-empty
candidate list when every candidate has similarity 0, because the running
maximum starts at 0 and candidates are taken only on a strict increase:
`findMostSimilar "a" ["b"]` is `none` although `["b"]` is non-empty. -/
theorem claim_C4_counterexample :
    findMostSimilar "a" ["b"] = none ∧ (["b"] : List String) ≠ [] :=
  ⟨by with_unfolding_all rfl, by simp⟩

/-- C4 amended: `findMostSimilar` returns `none` exactly when every
candidate (vacuously, none) has similarity 0 to the target; when it
returns a candidate, that candidate is the first one attaining the
maximum similarity — it has positive similarity, every earlier candidate
scores strictly lower, and no later candidate scores higher. -/
theorem claim_C4_amended (target : String) (cs : List String) :
    (findMostSimilar target cs = none ↔ ∀ c ∈ cs, calculateSimilarity target c = 0) ∧
    ∀ r, findMostSimilar target cs = some r →
      ∃ l1 l2, cs = l1 ++ r :: l2 ∧ 0 < calculateSimilarity target r ∧
        (∀ x ∈ l1, calculateSimilarity target x < calculateSimilarity target r) ∧
        (∀ y ∈ l2, calculateSimilarity target y ≤ calculateSimilarity target r) := by
  rcases cs with _ | ⟨d, ds⟩
  · constructor
    · simp [findMostSimilar]
    · intro r hr
      simp [findMostSimilar] at hr
  · have hne : findMostSimilar target (d :: ds) = findMostSimilarGo target (d :: ds) 0 none := by
      simp [findMostSimilar]
    constructor
    · constructor
      · intro hnone c hc
        by_contra hzero
        have hpos : 0 < calculateSimilarity target c :=
          lt_of_le_of_ne (calculateSimilarity_range target c).1 (Ne.symm hzero)
        obtain ⟨r, hr⟩ := @findMostSimilarGo_exists target (d :: ds) 0 none ⟨c, hc, hpos⟩
        rw [hne, hr] at hnone
        exact Option.noConfusion hnone
      · intro hall
        rw [hne]
        exact findMostSimilarGo_all_le fun c hc => le_of_eq (hall c hc)
    · intro r hr
      rw [hne] at hr
      rcases findMostSimilarGo_spec hr with ⟨habs, -⟩ | ⟨l1, l2, heq, hp1, hp2, hp3⟩
      · exact Option.noConfusion habs
      · exact ⟨l1, l2, heq, hp1, hp2, hp3⟩

/-- C4 witness: the amended characterization applied to the source's own
doc example, where `findMostSimilar "helo" ["hello", "world", "help"]`
returns "hello". -/
theorem claim_C4_witness :
    ∃ l1 l2, (["hello", "world", "help"] : List String) = l1 ++ "hello" :: l2 ∧
      0 < calculateSimilarity "helo" "hello" ∧
      (∀ x ∈ l1, calculateSimilarity "helo" x < calculateSimilarity "helo" "hello") ∧
      (∀ y ∈ l2, calculateSimilarity "helo" y ≤ calculateSimilarity "helo" "hello") :=
  (claim_C4_amended "helo" ["hello", "world", "help"]).2 "hello"
    (by with_unfolding_all rfl)

/-- C6: when the input is not empty (in the `isEmptyText` sense of the
processor's first case) and the match list is non-empty, the result's
confidence is recomputed as the raw similarity of the normalized input
and the normalized source-language field of the best match, regardless of
the tier that selected it. -/
theorem claim_C6 (input : String) (matchList : List Translation)
    (sl tl : LanguageOption) (h1 : isEmptyText input = false)
    (bm : Translation) (rest : List Translation) (h2 : matchList = bm :: rest) :
    (processTranslation input matchList sl tl).confidence =
      calculateSimilarity (normalizeText input)
        (normalizeText (getField bm
          (if sl.code == "en" then SourceField.english else SourceField.klingon))) := by
  rcases processTranslation_cases input matchList sl tl with
    ⟨habs, -⟩ | ⟨-, habs, -⟩ | ⟨-, bm2, rest2, heq, hpeq⟩
  · rw [h1] at habs
    exact absurd habs (by simp)
  · rw [h2] at habs
    exact absurd habs (by simp)
  · rw [h2] at heq
    injection heq with hh hrest
    subst hh
    rw [hpeq]

/-- C6 witness: the recomputed-confidence equation at a concrete exact
match. -/
theorem claim_C6_witness :
    (processTranslation "Hello!" [⟨"1", "hello", "nuqneH", none, none, none, []⟩]
        ⟨"en", "English", "🇺🇸", "ltr"⟩ ⟨"tlh", "Klingon", "🖖", "ltr"⟩).confidence =
      calculateSimilarity (normalizeText "Hello!")
        (normalizeText (getField ⟨"1", "hello", "nuqneH", none, none, none, []⟩
          (if (⟨"en", "English", "🇺🇸", "ltr"⟩ : LanguageOption).code == "en"
           then SourceField.english else SourceField.klingon))) :=
  claim_C6 "Hello!" [⟨"1", "hello", "nuqneH", none, none, none, []⟩]
    ⟨"en", "English", "🇺🇸", "ltr"⟩ ⟨"tlh", "Klingon", "🖖", "ltr"⟩ (by decide)
    ⟨"1", "hello", "nuqneH", none, none, none, []⟩ [] rfl

/-- C2 counterexample: with an adversarial dictionary the bracket and
empty-output implications fail.  An entry whose klingon field is the
bracket-wrapped input makes the result's output equal "[" ++ input ++ "]"
with non-zero confidence, and an entry whose klingon field is empty makes
the output empty with non-zero confidence. -/
theorem claim_C2_counterexample :
    ((translateText [⟨"3", "x", "[x]", none, none, none, []⟩]
          ⟨"x", "en", "tlh"⟩).output = "[" ++ "x" ++ "]" ∧
      (translateText [⟨"3", "x", "[x]", none, none, none, []⟩]
          ⟨"x", "en", "tlh"⟩).confidence ≠ 0) ∧
    ((translateText [⟨"4", "y", "", none, none, none, []⟩]
          ⟨"y", "en", "tlh"⟩).output = "" ∧
      (translateText [⟨"4", "y", "", none, none, none, []⟩]
          ⟨"y", "en", "tlh"⟩).confidence ≠ 0) := by
  refine ⟨⟨by with_unfolding_all rfl, ?_⟩, ⟨by with_unfolding_all rfl, ?_⟩⟩
  · with_unfolding_all exact of_decide_eq_true rfl
  · with_unfolding_all exact of_decide_eq_true rfl

/-- C2 amended: every result of `translateText` has confidence in [0, 1]
and at most 3 suggestions; and provided no dictionary entry carries an
empty english or klingon field, an empty output implies confidence 0,
while provided no entry's english or klingon field equals the
bracket-wrapped input, a bracket-wrapped output implies confidence 0 and
no suggestions.  (The unconditional forms are refuted by
the counterexample.) -/
theorem claim_C2_amended (dict : List Translation) (opts : TranslationOptions) :
    0 ≤ (translateText dict opts).confidence ∧
    (translateText dict opts).confidence ≤ 1 ∧
    (translateText dict opts).suggestions.length ≤ 3 ∧
    ((∀ t ∈ dict, t.english ≠ "" ∧ t.klingon ≠ "") →
      (translateText dict opts).output = "" →
      (translateText dict opts).confidence = 0) ∧
    ((∀ t ∈ dict, t.english ≠ "[" ++ opts.text ++ "]" ∧
        t.klingon ≠ "[" ++ opts.text ++ "]") →
      (translateText dict opts).output = "[" ++ opts.text ++ "]" →
      (translateText dict opts).confidence = 0 ∧
        (translateText dict opts).suggestions = []) := by
  rcases translateText_cases dict opts with
    ⟨-, heq⟩ | ⟨-, -, heq⟩ | ⟨-, -, -, sl, tl, hcode, heq⟩
  · rw [heq]
    exact ⟨le_refl 0, by norm_num, by simp, fun _ _ => rfl,
      fun _ habs => absurd habs.symm (wrap_ne_empty _)⟩
  · rw [heq]
    exact ⟨le_refl 0, by norm_num, by simp, fun _ _ => rfl,
      fun _ habs => absurd habs.symm (wrap_ne_empty _)⟩
  · rw [heq]
    set fm := findMatches opts.text dict
      (if lowerStr opts.fromLanguage == "klingon" then SourceField.klingon
       else SourceField.english) with hfm
    rcases processTranslation_cases opts.text fm sl tl with
      ⟨-, hpeq⟩ | ⟨-, -, hpeq⟩ | ⟨-, bm, rest, hml, hpeq⟩
    · rw [hpeq]
      exact ⟨le_refl 0, by norm_num, by simp, fun _ _ => rfl,
        fun _ habs => absurd habs.symm (wrap_ne_empty _)⟩
    · rw [hpeq]
      exact ⟨le_refl 0, by norm_num, by simp, fun _ _ => rfl, fun _ _ => ⟨rfl, rfl⟩⟩
    · have hbm : bm ∈ fm := by
        rw [hml]
        exact List.mem_cons_self bm rest
      have hdict : bm ∈ dict := by
        rw [hfm] at hbm
        exact findMatches_subset hbm
      rw [hpeq]
      dsimp only
      refine ⟨(calculateSimilarity_range _ _).1, (calculateSimilarity_range _ _).2, ?_, ?_, ?_⟩
      · have := List.length_take 3 rest
        omega
      · intro hne habs
        rcases hne bm hdict with ⟨he, hk⟩
        by_cases hsl : (sl.code == "en") = true
        · rw [if_pos hsl] at habs
          exact absurd habs hk
        · rw [if_neg hsl] at habs
          exact absurd habs he
      · intro hbr habs
        rcases hbr bm hdict with ⟨he, hk⟩
        by_cases hsl : (sl.code == "en") = true
        · rw [if_pos hsl] at habs
          exact absurd habs hk
        · rw [if_neg hsl] at habs
          exact absurd habs he

/-- C2 witness: the amended theorem applied at a concrete instance (an
unsupported target language), with the dictionary hypotheses and the
empty-output premise discharged. -/
theorem claim_C2_witness :
    (translateText [] ⟨"hi", "en", "xx"⟩).confidence = 0 :=
  (claim_C2_amended [] ⟨"hi", "en", "xx"⟩).2.2.2.1 (by simp) (by decide)

/-- C5: `translateText` is a total function of its inputs (it is defined
for every text and every pair of language identifiers, supported or not)
and always returns a well-formed result: the input is echoed back, the
confidence is within [0, 1], and the output is either the empty string,
the bracket-wrapped input, or a field of some dictionary entry — failure
is expressed only through the shape of the result. -/
theorem claim_C5 (dict : List Translation) (opts : TranslationOptions) :
    (translateText dict opts).input = opts.text ∧
    0 ≤ (translateText dict opts).confidence ∧
    (translateText dict opts).confidence ≤ 1 ∧
    ((translateText dict opts).output = "" ∨
      (translateText dict opts).output = "[" ++ opts.text ++ "]" ∨
      ∃ t ∈ dict, (translateText dict opts).output = t.english ∨
        (translateText dict opts).output = t.klingon) := by
  rcases translateText_cases dict opts with
    ⟨-, heq⟩ | ⟨-, -, heq⟩ | ⟨-, -, -, sl, tl, hcode, heq⟩
  · rw [heq]
    exact ⟨rfl, le_refl 0, by norm_num, Or.inl rfl⟩
  · rw [heq]
    exact ⟨rfl, le_refl 0, by norm_num, Or.inl rfl⟩
  · rw [heq]
    set fm := findMatches opts.text dict
      (if lowerStr opts.fromLanguage == "klingon" then SourceField.klingon
       else SourceField.english) with hfm
    rcases processTranslation_cases opts.text fm sl tl with
      ⟨-, hpeq⟩ | ⟨-, -, hpeq⟩ | ⟨-, bm, rest, hml, hpeq⟩
    · rw [hpeq]
      exact ⟨rfl, le_refl 0, by norm_num, Or.inl rfl⟩
    · rw [hpeq]
      exact ⟨rfl, le_refl 0, by norm_num, Or.inr (Or.inl rfl)⟩
    · have hbm : bm ∈ fm := by
        rw [hml]
        exact List.mem_cons_self bm rest
      have hdict : bm ∈ dict := by
        rw [hfm] at hbm
        exact findMatches_subset hbm
      rw [hpeq]
      dsimp only
      refine ⟨rfl, (calculateSimilarity_range _ _).1, (calculateSimilarity_range _ _).2,
        Or.inr (Or.inr ⟨bm, hdict, ?_⟩)⟩
      by_cases hsl : (sl.code == "en") = true
      · rw [if_pos hsl]
        exact Or.inr rfl
      · rw [if_neg hsl]
        exact Or.inl rfl

/-- C8: the list returned by `findMatches` is descending in the assigned
tier similarity, and it is stable: filtering the result to the entries of
any one similarity value yields exactly the dictionary's own sublist of
the included entries with that value, in dictionary order. -/
theorem claim_C8 (input : String) (dict : List Translation) (f : SourceField)
    (h : trimL input.data ≠ []) :
    (findMatches input dict f).Pairwise
      (fun a b => assignedSim input f b ≤ assignedSim input f a) ∧
    ∀ q : ℚ,
      (findMatches input dict f).filter (fun t => decide (assignedSim input f t = q)) =
        dict.filter (fun t => !(getField t f == "") &&
          decide (3/5 < assignedSim input f t) && decide (assignedSim input f t = q)) := by
  have hfm : findMatches input dict f =
      (sortDesc (dict.filterMap (matchCandidate (normalizeText input) f))).map
        (fun m => m.translation) := by
    unfold findMatches
    dsimp only
    rw [if_neg (by simpa using h)]
  constructor
  · rw [hfm, List.pairwise_map]
    refine List.Pairwise.imp_of_mem ?_ (sortDesc_pairwise _)
    intro a b ha hb hab
    have ha2 := (mem_matchList_sim (mem_sortDesc.mp ha)).1
    have hb2 := (mem_matchList_sim (mem_sortDesc.mp hb)).1
    rw [← ha2, ← hb2]
    exact hab
  · intro q
    rw [hfm, List.filter_map]
    have hcongr :
        (sortDesc (dict.filterMap (matchCandidate (normalizeText input) f))).filter
          ((fun t => decide (assignedSim input f t = q)) ∘ (fun m => m.translation)) =
        (sortDesc (dict.filterMap (matchCandidate (normalizeText input) f))).filter
          (fun m => decide (m.similarity = q)) := by
      apply List.filter_congr
      intro m hm
      have hms := (mem_matchList_sim (mem_sortDesc.mp hm)).1
      simp only [Function.comp]
      rw [hms]
    rw [hcongr, sortDesc_filter, filterMap_filter_eq]

/-- C8 witness: the stability equation applied at a concrete two-entry
tie (both entries match "hello" exactly, so both carry similarity 1 and
keep their dictionary order). -/
theorem claim_C8_witness :
    (findMatches "hello" [⟨"1", "hello", "nuqneH", none, none, none, []⟩,
        ⟨"5", "hello", "Qapla", none, none, none, []⟩] SourceField.english).filter
      (fun t => decide (assignedSim "hello" SourceField.english t = 1)) =
    [⟨"1", "hello", "nuqneH", none, none, none, []⟩,
     ⟨"5", "hello", "Qapla", none, none, none, []⟩].filter
      (fun t => !(getField t SourceField.english == "") &&
        decide (3/5 < assignedSim "hello" SourceField.english t) &&
        decide (assignedSim "hello" SourceField.english t = 1)) :=
  (claim_C8 "hello" [⟨"1", "hello", "nuqneH", none, none, none, []⟩,
    ⟨"5", "hello", "Qapla", none, none, none, []⟩] SourceField.english (by decide)).2 1

end KlingonTranslator
